import Mathlib

/-!
Verification of the coffea `nanoevents/transforms.py` module: a shallow
embedding in Lean 4 of its form-key derivation functions, index-translation
kernels, decay-graph traversal kernels and range-mapper functions, together
with theorems settling the specification claims.

Machine integers (numpy int64) are modelled as `Int`; all index arithmetic
in the module stays far below 2^63 in the validity regimes the claims quantify
over, and the int64 dtype checks of `local2global` are width tags that cannot
fail in this model.  Jagged awkward arrays are modelled as nested `List`s
(offsets-based layouts are materialised as lists of sublists).  Failure paths
(`raise RuntimeError`, numba bound violations, Python unpack/type errors) are
modelled with `Except`.
-/

/-- Modelled from the spec: `concat` (from `coffea.nanoevents.util`, not part
of the given sources) deterministically derives a key by concatenating the
keys of a form's inputs together with the operation's name; modelled as a
comma-join of its arguments. -/
def concat (parts : List String) : String :=
  String.intercalate "," parts

/-- A leaf (NumpyArray) form: class tag, cache key, element byte width and
primitive type name, as in the dicts built by `transforms.py`.  The `format`
and `parameters` entries of the Python dicts are carried by no claim and are
omitted. -/
structure NFo where
  className : String
  form_key : String
  itemsize : Nat
  primitive : String
deriving DecidableEq, Repr

/-- A list-of-leaf (ListOffsetArray over NumpyArray) form, the shape at which
`local2global_form` and `grow_local_index_to_target_shape_form` read and write
their operands' dicts. -/
structure LFo where
  className : String
  form_key : String
  content : NFo
deriving DecidableEq, Repr

/-- Python `str.startswith`, as used by the form operations' class checks
(stated over the string's character list so that it evaluates by `decide`). -/
def strStartsWith (s pre : String) : Bool :=
  pre.data.isPrefixOf s.data

/-- Embedding of `local2global_form`: validates the operand classes, deep-copies
the index form, and rewrites only the content-level key (the top-level key is
inherited from the index input unchanged). -/
def local2global_form (index : LFo) (target_offsets : NFo) : Except Unit LFo :=
  if !(strStartsWith index.className "ListOffset") then .error () else
  if !(target_offsets.className = "NumpyArray") then .error () else
  .ok { className := index.className
        form_key := index.form_key
        content := { className := index.content.className
                     form_key := concat [index.form_key, target_offsets.form_key, "!local2global"]
                     itemsize := 8
                     primitive := "int64" } }

/-- Embedding of `grow_local_index_to_target_shape_form`: validates the operand
classes, derives the top-level key from the two top-level input keys followed by
the operation name, and derives the content-level key from the two parent
content keys with no operation name appended (as the source does). -/
def grow_local_index_to_target_shape_form (index target : LFo) : Except Unit LFo :=
  if !(strStartsWith index.className "ListOffset") then .error () else
  if !(strStartsWith target.className "ListOffset") then .error () else
  .ok { className := index.className
        form_key := concat [index.form_key, target.form_key, "!grow_local_index_to_target_shape"]
        content := { className := index.content.className
                     form_key := concat [index.content.form_key, target.content.form_key]
                     itemsize := 8
                     primitive := "int64" } }

/-- Embedding of `counts2offsets`: `offsets[0] = 0` followed by the cumulative
sum of the counts, i.e. a left scan of addition starting at 0. -/
def counts2offsets (counts : List Int) : List Int :=
  List.scanl (· + ·) 0 counts

/-- Embedding of `local2global`.  The first masking step keeps non-negative
local indices and adds, per event, the event's target offset
(`index.mask[index >= 0] + target_offsets[:-1]`); the second keeps results
below the next offset (`index.mask[index < target_offsets[1:]]`); finally
missing entries are filled with `-1` and the array is flattened. -/
def local2global (index : List (List Int)) (T : List Int) : List Int :=
  let step1 : List (List (Option Int)) :=
    List.zipWith (fun ev t => ev.map (fun l => if 0 ≤ l then some (l + t) else none))
      index T.dropLast
  let step2 : List (List (Option Int)) :=
    List.zipWith (fun ev t1 => ev.map (fun v => v.bind (fun g => if g < t1 then some g else none)))
      step1 (T.drop 1)
  (step2.map (fun ev => ev.map (fun v => v.getD (-1)))).flatten

/-- The specification's description of local-to-global translation: per event
`e`, an entry `l` maps to `l + T[e]` when `0 ≤ l < T[e+1] - T[e]` and to `-1`
otherwise, and the per-event results are flattened. -/
def local2globalSpec (index : List (List Int)) (T : List Int) : List Int :=
  (List.zipWith (fun ev p => ev.map (fun l => if 0 ≤ l ∧ l + p.1 < p.2 then l + p.1 else -1))
    index (T.dropLast.zip (T.drop 1))).flatten

example : counts2offsets [2, 3, 4] = [0, 2, 5, 9] := by decide
example : counts2offsets [] = [0] := by decide
example : local2global [[0, 1, -1], [2, 0]] [0, 2, 5] = [0, 1, -1, 4, 2] := by decide
example : local2globalSpec [[0, 1, -1], [2, 0]] [0, 2, 5] = [0, 1, -1, 4, 2] := by decide

/-- A runtime operand of the transform stack engine: either a flat int64
buffer or a jagged (one-level list offset) array of int64, the shapes consumed
and produced by the operations modelled here. -/
inductive Value where
  | flat (xs : List Int)
  | jagged (rows : List (List Int))
deriving DecidableEq, Repr

/-- Embedding of `data`: the body is `pass`, so the stack is left unchanged
(nothing is popped and nothing is pushed). -/
def data_op (stack : List Value) : Except Unit (List Value) :=
  .ok stack

/-- Embedding of the stack form of `counts2offsets`: pop the counts buffer and
push the offsets buffer.  The stack is modelled with its top as the list head. -/
def counts2offsets_stack (stack : List Value) : Except Unit (List Value) :=
  match stack with
  | Value.flat counts :: rest => .ok (Value.flat (counts2offsets counts) :: rest)
  | _ => .error ()

/-- Embedding of the stack form of `local2global`: pop the target offsets, pop
the jagged index, push the flat translated buffer. -/
def local2global_stack (stack : List Value) : Except Unit (List Value) :=
  match stack with
  | Value.flat toffs :: Value.jagged rows :: rest =>
      .ok (Value.flat (local2global rows toffs) :: rest)
  | _ => .error ()

/-- View a stack value as a flat buffer, if it is one. -/
def Value.flat? : Value → Option (List Int)
  | .flat xs => some xs
  | .jagged _ => none

/-- Embedding of `nestedindex`: it reads the whole stack (`indexers = stack[:]`,
bottom of the stack first), clears it, interleaves the flat index buffers into
one jagged array of rows of width `n = len(indexers)` and pushes that single
result.  The interleaving assignment `out[i::n] = idx` requires every indexer
to be a flat buffer of the first indexer's length; other operand shapes fail. -/
def nestedindex_stack (stack : List Value) : Except Unit (List Value) :=
  match (stack.reverse).mapM Value.flat? with
  | none => .error ()
  | some idxs =>
    match idxs with
    | [] => .error ()
    | first :: _ =>
      if idxs.all (fun l => l.length = first.length) then
        .ok [Value.jagged ((List.range first.length).map (fun j => idxs.map (fun l => l.getD j 0)))]
      else .error ()

/-- Decidable equality for modelled failure-carrying results. -/
instance {ε α : Type} [DecidableEq ε] [DecidableEq α] : DecidableEq (Except ε α) := fun a b =>
  match a, b with
  | .ok x, .ok y =>
      if h : x = y then isTrue (by rw [h]) else isFalse (fun hc => h (Except.ok.inj hc))
  | .error x, .error y =>
      if h : x = y then isTrue (by rw [h]) else isFalse (fun hc => h (Except.error.inj hc))
  | .ok _, .error _ => isFalse (fun hc => Except.noConfusion hc)
  | .error _, .ok _ => isFalse (fun hc => Except.noConfusion hc)

/-- The integer sequence `b, b+1, ..., e-1` (Python `range(b, e)`), as emitted
for one (begin, end) pair by `get_index_ranges_kernel`. -/
def intRange (b e : Int) : List Int :=
  (List.range (e - b).toNat).map (fun k => b + k)

/-- Embedding of `get_index_ranges_kernel`: for every event and position,
emit the explicit integer range of its (begin, end) pair as an inner list. -/
def getIndexRangesKernel (begin_end : List (List (Int × Int))) : List (List (List Int)) :=
  begin_end.map (fun ev => ev.map (fun p => intRange p.1 p.2))

/-- Embedding of `get_index_ranges`: pair up begin and end per position, run
the kernel, and — whenever `awkward.sum(ranges) == 0`, i.e. the emitted
integers sum to zero — replace the result with `begin_end[begin_end < 0]`
(per position, the negative members of the pair, in order). -/
def get_index_ranges (bgn ends : List (List Int)) : List (List (List Int)) :=
  let be := List.zipWith (fun bs es => List.zipWith Prod.mk bs es) bgn ends
  let ranges := getIndexRangesKernel be
  if (ranges.map (fun ev => (ev.map (fun l => l.sum)).sum)).sum = 0 then
    be.map (fun ev => ev.map (fun p =>
      (if p.1 < 0 then [p.1] else []) ++ (if p.2 < 0 then [p.2] else [])))
  else ranges

/-- Python indexing `l[k]` on a numeric buffer: negative indices wrap from the
end; indices outside `[-len, len)` fail. -/
def pyGet (l : List Int) (k : Int) : Except String Int :=
  let j : Int := if k < 0 then (l.length : Int) + k else k
  if h : 0 ≤ j ∧ j.toNat < l.length then .ok (l.get ⟨j.toNat, h.2⟩)
  else .error "index out of range"

/-- Embedding of `get_array_from_indices_kernel` (scalar flat target): for each
event and inner index list, gather the target's values at those positions. -/
def get_array_from_indices_kernel (indices : List (List (List Int)))
    (target : List (List Int)) : Except String (List (List (List Int))) :=
  (List.range indices.length).mapM (fun ev =>
    match indices.get? ev, target.get? ev with
    | some evIdx, some evTgt => evIdx.mapM (fun l => l.mapM (fun k => pyGet evTgt k))
    | _, _ => .error "event index out of range")

/-- The innermost-level filter `a[a < 0]` on a doubly-nested index array,
used by the mapping operations to build their well-formed empty results. -/
def filterNeg3 (indices : List (List (List Int))) : List (List (List Int)) :=
  indices.map (fun ev => ev.map (fun l => l.filter (fun v => v < 0)))

/-- Embedding of `begin_end_mapping` (with a two-dimensional target, the shape
all claims exercise): build the index ranges, and gather from the target unless
the target or the generated indices are empty, in which case the filtered
doubly-empty result is returned. -/
def begin_end_mapping (bgn ends : List (List Int)) (target : List (List Int)) :
    Except String (List (List (List Int))) :=
  let indices := get_index_ranges bgn ends
  if (target.map List.length).sum = 0 then .ok (filterNeg3 indices)
  else if (indices.map List.length).sum = 0 then .ok (filterNeg3 indices)
  else get_array_from_indices_kernel indices target

/-- A structured record with the three named numeric fields gathered by the
xyzrecord variant of the mapper. -/
structure Xyz where
  x : Int
  y : Int
  z : Int
deriving DecidableEq, Repr

/-- The possible results of `begin_end_mapping_with_xyzrecord`: the empty
branches return a (mis-shaped, depth-two) filtered integer array, the gather
branch would return records. -/
inductive XyzOut where
  | ints2 (v : List (List Int))
  | recs (v : List (List (List Xyz)))
deriving DecidableEq, Repr

/-- Embedding of `begin_end_mapping_with_xyzrecord`.  The source destructures
the single nested array returned by `get_index_ranges` as
`indices, o1, o2 = get_index_ranges(begin, end)`, which iterates its first
axis: it fails (ValueError) unless the array has exactly three events, and
otherwise binds `indices` to the first event only, a depth-two array.  In the
three-event case the record gather then iterates the integers of `indices`
where lists are expected, which fails (a numba typing error), unless one of the
empty-input branches returns the depth-two filtered array first.  The typed
target always has its three record fields, so the fieldless-target branch
(`raise RuntimeError("Target is a ListOffset.")`) is unreachable here. -/
def begin_end_mapping_with_xyzrecord (bgn ends : List (List Int))
    (target : List (List Xyz)) : Except String XyzOut :=
  match get_index_ranges bgn ends with
  | [i1, _o1, _o2] =>
      let indices := i1
      if (target.map List.length).sum = 0 then
        .ok (.ints2 (indices.map (fun l => l.filter (fun v => v < 0))))
      else if (indices.map List.length).sum = 0 then
        .ok (.ints2 (indices.map (fun l => l.filter (fun v => v < 0))))
      else .error "TypeError: integer inner entries are not iterable"
  | _ => .error "ValueError: cannot unpack the ranges array into three values"

example : get_index_ranges [[2]] [[5]] = [[[2, 3, 4]]] := by decide
example : get_index_ranges [[3]] [[3]] = [[[]]] := by decide
example : get_index_ranges [[0]] [[1]] = [[[]]] := by decide
example : begin_end_mapping [[2]] [[5]] [[10, 11, 12, 13, 14, 15]] = .ok [[[12, 13, 14]]] := by decide

/-- The inner `while` loop of `_distinctParent_kernel`: from the current
candidate `p`, keep stepping `p := allpart_parent[p]` while `p ≥ 0` and the
species tag at `p` equals the starting particle's tag; return the final
candidate.  The source loop is unbounded, so the embedding carries explicit
fuel, with `none` standing for non-termination of the loop; since the loop
state is just `p`, a run of more than `allpart_pdg.length` steps revisits a
state and diverges, so array-length fuel is exact for in-bounds inputs. -/
def distinctParentWalk (parents pdgs : List Int) (thisPdg : Int) : Nat → Int → Option Int
  | 0, _ => none
  | fuel + 1, p =>
    if p < 0 then some p
    else if pdgs.getD p.toNat 0 ≠ thisPdg then some p
    else distinctParentWalk parents pdgs thisPdg fuel (parents.getD p.toNat 0)

/-- Embedding of `_distinctParent_kernel`: per particle, `-1` for roots and
otherwise the walk of `distinctParentWalk` started at the particle's parent,
run with array-length fuel. -/
def distinctParent_kernel (parents pdgs : List Int) : List (Option Int) :=
  (List.range pdgs.length).map (fun i =>
    let p := parents.getD i 0
    if p < 0 then some (-1)
    else distinctParentWalk parents pdgs (pdgs.getD i 0) pdgs.length p)

/-- The chain of successive ancestors starting at candidate `p` (inclusive),
stopping before any negative entry; fuel-bounded like the walk. -/
def parentChain (parents : List Int) : Nat → Int → List Int
  | 0, _ => []
  | fuel + 1, p =>
    if p < 0 then [] else p :: parentChain parents fuel (parents.getD p.toNat 0)

/-- The first entry of a candidate-ancestor list whose species tag differs
from the given one, or `-1` when there is none. -/
def firstDiff (pdgs : List Int) (tp : Int) : List Int → Int
  | [] => -1
  | q :: rest => if pdgs.getD q.toNat 0 ≠ tp then q else firstDiff pdgs tp rest

/-- The claim's description of distinct-parent: `-1` when the particle has no
parent, and otherwise the first ancestor on the parent chain whose species tag
differs from the particle's own, or `-1` when the chain terminates without
one. -/
def distinctParentSpec (parents pdgs : List Int) (i : Nat) : Int :=
  let p := parents.getD i 0
  if p < 0 then -1
  else firstDiff pdgs (pdgs.getD i 0) (parentChain parents parents.length p)

example : distinctParent_kernel [-1, 0, 1] [1, 1, 2] = [some (-1), some (-1), some 1] := by decide
example : (List.range 3).map (fun i => distinctParentSpec [-1, 0, 1] [1, 1, 2] i) = [-1, -1, 1] := by decide

/-- The inner loop of `_children_kernel` for one source index `k`: scan the
remaining positions `j` of the event, and append every `j` whose parent entry
equals `k` to the content accumulator, failing if the preallocated capacity
`cap = len(parentidx)` is already full.  `fuel` counts the remaining positions
(`stop_src - j`). -/
def childrenInner (parent : List Int) (cap k : Nat) : Nat → Nat → List Nat → Except Unit (List Nat)
  | _, 0, content => .ok content
  | j, fuel + 1, content =>
    if parent.getD j 0 = (k : Int) then
      if cap ≤ content.length then .error ()
      else childrenInner parent cap k (j + 1) fuel (content ++ [j])
    else childrenInner parent cap k (j + 1) fuel content

/-- The middle loop of `_children_kernel` for one event `[k, t)` (entered with
`k = start_src`): per source index, run the inner scan, then append the current
content length as the next offsets entry, failing if the `cap + 1` preallocated
offsets slots are already full. -/
def childrenMid (parent : List Int) (cap t : Nat) :
    Nat → Nat → List Int × List Nat → Except Unit (List Int × List Nat)
  | _, 0, st => .ok st
  | k, fuel + 1, (offs, content) =>
    match childrenInner parent cap k k (t - k) content with
    | .error e => .error e
    | .ok c' =>
      if cap + 1 ≤ offs.length then .error ()
      else childrenMid parent cap t (k + 1) fuel (offs ++ [(c'.length : Int)], c')

/-- The outer loop of `_children_kernel`: one middle pass per adjacent pair of
input offsets. -/
def childrenOuter (parent : List Int) (cap : Nat) :
    List Int → List Int × List Nat → Except Unit (List Int × List Nat)
  | [], st => .ok st
  | [_], st => .ok st
  | a :: b :: rest, st =>
    match childrenMid parent cap b.toNat a.toNat (b.toNat - a.toNat) st with
    | .error e => .error e
    | .ok st' => childrenOuter parent cap (b :: rest) st'

/-- Embedding of `_children_kernel`: offsets output starts at `[0]`, content
starts empty, and both preallocated-buffer bound checks are modelled as
`Except` failures.  Output child indices are kept as `Nat` positions. -/
def children_kernel (offsets_in parentidx : List Int) : Except Unit (List Int × List Nat) :=
  childrenOuter parentidx parentidx.length offsets_in ([0], [])

example : children_kernel [0, 4] [-1, 0, 0, 1] = .ok ([0, 2, 3, 3, 3], [1, 2, 3]) := by decide

/-- The children emitted by one inner scan of `_children_kernel`, described
directly: the positions `j ∈ [k, t)` whose parent entry is `k`. -/
def childEmit (parent : List Int) (k t : Nat) : List Nat :=
  (List.range' k (t - k)).filter (fun j => parent.getD j 0 = (k : Int))

/-- All children emitted while `_children_kernel` processes one event `[s, t)`. -/
def eventEmit (parent : List Int) (s t : Nat) : List Nat :=
  ((List.range' s (t - s)).map (fun k => childEmit parent k t)).flatten

/-- The forward scan of `_distinctChildrenDeep_kernel` for one lineage-start
particle.  The state is `(P, W, em)`: the same-species relay ancestors found so
far (`parents`, seeded with the particle itself by the caller), the record of
relay ancestors observed to have a child (`parents_with_children`, with
duplicates), and the content entries emitted for this particle.  Per scanned
position `c`: when `global_parents[c]` matches a seen relay ancestor, that
parent is recorded in `W`, and `c` is appended to `P` (same species) or emitted
into `em` (different species).  `pcap = stop_src - index` is the preallocated
capacity of both `parents` and `parents_with_children`; `lenAll` is the global
content capacity and `clen0` the content length already used by earlier
particles.  `fuel` counts the remaining scan positions. -/
def ddcScan (parentsArr pdgs : List Int) (thisPdg : Int) (lenAll pcap clen0 : Nat) :
    Nat → Nat → List Int × List Int × List Int → Except Unit (List Int × List Int × List Int)
  | _, 0, st => .ok st
  | c, fuel + 1, (P, W, em) =>
    let pp := parentsArr.getD c 0
    if pp ∈ P then
      if pcap ≤ W.length then .error ()
      else if pdgs.getD c 0 = thisPdg then
        if pcap ≤ P.length then .error ()
        else ddcScan parentsArr pdgs thisPdg lenAll pcap clen0 (c + 1) fuel
               (P ++ [(c : Int)], W ++ [pp], em)
      else
        if lenAll ≤ clen0 + em.length then .error ()
        else ddcScan parentsArr pdgs thisPdg lenAll pcap clen0 (c + 1) fuel
               (P, W ++ [pp], em ++ [(c : Int)])
    else ddcScan parentsArr pdgs thisPdg lenAll pcap clen0 (c + 1) fuel (P, W, em)

/-- The post-scan pass of `_distinctChildrenDeep_kernel`: every relay ancestor
in the given list (the caller passes `P.drop 1`, skipping the lineage-start
particle in `parents[0]`) that was never recorded in `W` is appended to the
emitted content, subject to the same global content capacity. -/
def ddcDeadEnd (W : List Int) (lenAll clen0 : Nat) :
    List Int → List Int → Except Unit (List Int)
  | [], em => .ok em
  | p :: rest, em =>
    if p ∈ W then ddcDeadEnd W lenAll clen0 rest em
    else if lenAll ≤ clen0 + em.length then .error ()
    else ddcDeadEnd W lenAll clen0 rest (em ++ [p])

/-- One particle of `_distinctChildrenDeep_kernel`: when particle `i` starts a
new same-species lineage (its parent exists and carries a different species
tag), run the forward scan over `[i, t)` seeded with relay-ancestor list `[i]`
and then the dead-end pass over the relay ancestors other than `i`; otherwise
contribute nothing.  Returns the content entries this particle appends. -/
def ddcParticle (parentsArr pdgs : List Int) (lenAll clen0 : Nat) (i t : Nat) :
    Except Unit (List Int) :=
  let pp := parentsArr.getD i 0
  if 0 ≤ pp ∧ pdgs.getD i 0 ≠ pdgs.getD pp.toNat 0 then
    match ddcScan parentsArr pdgs (pdgs.getD i 0) lenAll (t - i) clen0 i (t - i)
            ([(i : Int)], [], []) with
    | .error e => .error e
    | .ok (P, W, em) => ddcDeadEnd W lenAll clen0 (P.drop 1) em
  else .ok []

/-- The per-event loop of `_distinctChildrenDeep_kernel` over particles
`[i, t)`: append each particle's contribution to the content and post one
offsets entry per particle, with the offsets bound check. -/
def ddcEvent (parentsArr pdgs : List Int) (lenAll : Nat) (t : Nat) :
    Nat → Nat → List Int × List Int → Except Unit (List Int × List Int)
  | _, 0, st => .ok st
  | i, fuel + 1, (offs, content) =>
    match ddcParticle parentsArr pdgs lenAll content.length i t with
    | .error e => .error e
    | .ok ext =>
      if lenAll + 1 ≤ offs.length then .error ()
      else ddcEvent parentsArr pdgs lenAll t (i + 1) fuel
             (offs ++ [((content.length + ext.length : Nat) : Int)], content ++ ext)

/-- The outer loop of `_distinctChildrenDeep_kernel` over adjacent input
offset pairs. -/
def ddcOuter (parentsArr pdgs : List Int) (lenAll : Nat) :
    List Int → List Int × List Int → Except Unit (List Int × List Int)
  | [], st => .ok st
  | [_], st => .ok st
  | a :: b :: rest, st =>
    match ddcEvent parentsArr pdgs lenAll b.toNat a.toNat (b.toNat - a.toNat) st with
    | .error e => .error e
    | .ok st' => ddcOuter parentsArr pdgs lenAll (b :: rest) st'

/-- Embedding of `_distinctChildrenDeep_kernel`: offsets output starts at
`[0]`, content starts empty, and every preallocated-buffer bound check is
modelled as an `Except` failure. -/
def distinctChildrenDeep_kernel (offsets_in parentsArr pdgs : List Int) :
    Except Unit (List Int × List Int) :=
  ddcOuter parentsArr pdgs parentsArr.length offsets_in ([0], [])

example : distinctChildrenDeep_kernel [0, 4] [2, 0, 1, 1] [1, 1, 2, 1] =
    .ok ([0, 2, 2, 2, 2], [2, 3]) := by decide
example : distinctChildrenDeep_kernel [0, 2] [-1, 0] [5, 6] =
    .ok ([0, 0, 0], []) := by decide

theorem scanl_add_getD : ∀ (C : List Int) (init : Int) (i : Nat), i ≤ C.length →
    (List.scanl (· + ·) init C).getD i 0 = init + (C.take i).sum
  | [], _, 0, _ => by simp
  | [], _, i + 1, h => by simp at h
  | _ :: _, _, 0, _ => by simp [List.scanl_cons]
  | c :: cs, init, i + 1, h => by
      simp only [List.scanl_cons, List.singleton_append, List.getD_cons_succ,
        List.take_succ_cons, List.sum_cons]
      rw [scanl_add_getD cs (init + c) i (by simpa using h)]
      ring

/-- C8: for every sequence `C` of counts, `counts2offsets C` has length
`n + 1`, starts at 0, has consecutive differences equal to the counts, ends at
`sum C`, and maps the empty input to `[0]`.  (The claim restricts to
non-negative counts; the properties hold for all integer counts, which
subsumes it.) -/
theorem claim_C8 (C : List Int) :
    (counts2offsets C).length = C.length + 1 ∧
    (counts2offsets C).getD 0 0 = 0 ∧
    (∀ i, i < C.length →
      (counts2offsets C).getD (i + 1) 0 - (counts2offsets C).getD i 0 = C.getD i 0) ∧
    (counts2offsets C).getD C.length 0 = C.sum ∧
    counts2offsets [] = [0] := by
  have key : ∀ i, i ≤ C.length → (counts2offsets C).getD i 0 = (C.take i).sum := by
    intro i hi
    simpa using scanl_add_getD C 0 i hi
  refine ⟨List.length_scanl 0 C, ?_, ?_, ?_, rfl⟩
  · simpa using key 0 (Nat.zero_le _)
  · intro i hi
    rw [key i hi.le, key (i + 1) hi, List.sum_take_succ C i hi,
      List.getD_eq_getElem C 0 hi]
    ring
  · simpa using key C.length le_rfl

/-- Witness for `claim_C8`: the bounded-index conjunct at a concrete input. -/
theorem claim_C8_witness :
    (counts2offsets [4, 1]).getD 1 0 - (counts2offsets [4, 1]).getD 0 0 =
      ([4, 1] : List Int).getD 0 0 :=
  (claim_C8 [4, 1]).2.2.1 0 (by decide)

theorem l2g_elem (l a b : Int) :
    ((if 0 ≤ l then some (l + a) else none).bind
        (fun g => if g < b then some g else none)).getD (-1)
      = if 0 ≤ l ∧ l + a < b then l + a else -1 := by
  by_cases h0 : 0 ≤ l
  · by_cases h1 : l + a < b
    · simp [h0, h1]
    · simp [h0, h1]
  · simp [h0]

theorem l2g_core : ∀ (index : List (List Int)) (A B : List Int),
    (List.zipWith (fun ev t1 => ev.map (fun v => v.bind (fun g => if g < t1 then some g else none)))
        (List.zipWith (fun ev t => ev.map (fun l => if 0 ≤ l then some (l + t) else none)) index A)
        B).map (fun ev => ev.map (fun v => v.getD (-1)))
      = List.zipWith (fun ev p => ev.map (fun l => if 0 ≤ l ∧ l + p.1 < p.2 then l + p.1 else -1))
          index (A.zip B)
  | [], _, _ => by simp
  | _ :: _, [], _ => by simp
  | _ :: _, _ :: _, [] => by simp
  | ev :: index, a :: A, b :: B => by
      simp only [List.zipWith_cons_cons, List.zip_cons_cons, List.map_cons]
      refine congrArg₂ List.cons ?_ (l2g_core index A B)
      simp only [List.map_map]
      refine List.map_congr_left (fun l _ => ?_)
      simpa [Function.comp] using l2g_elem l a b

/-- C6: the masked, offset-shifted, refilled and flattened computation of
`local2global` agrees, for every jagged local index array and every target
offsets buffer, with the claim's per-element description: an entry `l` of
event `e` becomes `l + T[e]` exactly when `0 ≤ l < T[e+1] - T[e]`, and `-1`
otherwise (already-negative and out-of-range entries are indistinguishable in
the output).  Output entries are int64 by construction, modelled as `Int`. -/
theorem claim_C6 (index : List (List Int)) (T : List Int) :
    local2global index T = local2globalSpec index T := by
  simp only [local2global, local2globalSpec]
  rw [l2g_core index T.dropLast (T.drop 1)]

/-- C1 counterexample: on concrete well-formed input forms, the content-level
key produced by `grow_local_index_to_target_shape_form` is the bare
concatenation of the two parent content keys, which differs from the
concatenation followed by the operation's canonical name that the claim
asserts. -/
theorem claim_C1_counterexample :
    grow_local_index_to_target_shape_form
        ⟨"ListOffsetArray", "ikey", ⟨"NumpyArray", "ick", 8, "int64"⟩⟩
        ⟨"ListOffsetArray", "tkey", ⟨"NumpyArray", "tck", 8, "int64"⟩⟩
      = .ok ⟨"ListOffsetArray", "ikey,tkey,!grow_local_index_to_target_shape",
             ⟨"NumpyArray", "ick,tck", 8, "int64"⟩⟩ ∧
    "ick,tck" ≠ concat ["ick", "tck", "!grow_local_index_to_target_shape"] := by
  exact ⟨by decide, by decide⟩

/-- C1 amended: for well-formed inputs, `grow_local_index_to_target_shape_form`
derives its top-level key as the concatenation of the two input top-level keys
followed by the operation name, but its content-level key as the concatenation
of the two parent content keys with no operation name; `local2global_form`
inherits its top-level key from the index input and derives its content-level
key from the two input top-level keys followed by the operation name. -/
theorem claim_C1_amended (index target : LFo) (toff : NFo)
    (h1 : strStartsWith index.className "ListOffset" = true)
    (h2 : strStartsWith target.className "ListOffset" = true)
    (h3 : toff.className = "NumpyArray") :
    (∃ f, grow_local_index_to_target_shape_form index target = .ok f ∧
       f.form_key = concat [index.form_key, target.form_key, "!grow_local_index_to_target_shape"] ∧
       f.content.form_key = concat [index.content.form_key, target.content.form_key]) ∧
    (∃ g, local2global_form index toff = .ok g ∧
       g.form_key = index.form_key ∧
       g.content.form_key = concat [index.form_key, toff.form_key, "!local2global"]) := by
  constructor
  · have h : grow_local_index_to_target_shape_form index target = .ok
        { className := index.className
          form_key := concat [index.form_key, target.form_key, "!grow_local_index_to_target_shape"]
          content := { className := index.content.className
                       form_key := concat [index.content.form_key, target.content.form_key]
                       itemsize := 8
                       primitive := "int64" } } := by
      simp [grow_local_index_to_target_shape_form, h1, h2]
    exact ⟨_, h, rfl, rfl⟩
  · have h : local2global_form index toff = .ok
        { className := index.className
          form_key := index.form_key
          content := { className := index.content.className
                       form_key := concat [index.form_key, toff.form_key, "!local2global"]
                       itemsize := 8
                       primitive := "int64" } } := by
      simp [local2global_form, h1, h3]
    exact ⟨_, h, rfl, rfl⟩

/-- Witness for `claim_C1_amended` at concrete forms. -/
theorem claim_C1_witness :
    ∃ f, grow_local_index_to_target_shape_form
        ⟨"ListOffsetArray", "a", ⟨"NumpyArray", "ac", 8, "int64"⟩⟩
        ⟨"ListOffsetArray", "b", ⟨"NumpyArray", "bc", 8, "int64"⟩⟩ = .ok f ∧
      f.form_key = concat ["a", "b", "!grow_local_index_to_target_shape"] ∧
      f.content.form_key = concat ["ac", "bc"] :=
  (claim_C1_amended
    ⟨"ListOffsetArray", "a", ⟨"NumpyArray", "ac", 8, "int64"⟩⟩
    ⟨"ListOffsetArray", "b", ⟨"NumpyArray", "bc", 8, "int64"⟩⟩
    ⟨"NumpyArray", "x", 8, "int64"⟩ (by decide) (by decide) (by decide)).1

/-- C4 counterexample: `nestedindex` succeeds on stacks of depth 1 and of
depth 3, leaving a single result either way, so no fixed popped arity `k`
(with one pushed result) can describe it: `depth + 1 = 1 + k` would have to
hold for both depths. -/
theorem claim_C4_counterexample :
    nestedindex_stack [Value.flat [1]] = .ok [Value.jagged [[1]]] ∧
    nestedindex_stack [Value.flat [1], Value.flat [2], Value.flat [3]] =
      .ok [Value.jagged [[3, 2, 1]]] ∧
    ¬ ∃ k : Nat, 1 + 1 = 1 + k ∧ 3 + 1 = 1 + k := by
  refine ⟨by decide, by decide, ?_⟩
  rintro ⟨k, h1, h2⟩
  omega

/-- C4 amended: `data` leaves the stack unchanged (popping nothing and pushing
nothing), and `nestedindex` consumes the entire stack and pushes exactly one
result; every other modelled operation pops its fixed declared arity and pushes
exactly one result, here `counts2offsets` (arity 1) and `local2global`
(arity 2), as reflected in the stack lengths of the successful outcomes. -/
theorem claim_C4_amended (s s' : List Value) :
    data_op s = .ok s ∧
    (counts2offsets_stack s = .ok s' → s'.length = s.length) ∧
    (local2global_stack s = .ok s' → s'.length + 1 = s.length) ∧
    (nestedindex_stack s = .ok s' → s'.length = 1) := by
  refine ⟨rfl, ?_, ?_, ?_⟩
  · intro h
    match s, h with
    | Value.flat counts :: rest, h =>
        rw [counts2offsets_stack] at h
        cases h
        simp
  · intro h
    match s, h with
    | Value.flat toffs :: Value.jagged rows :: rest, h =>
        rw [local2global_stack] at h
        cases h
        simp
  · intro h
    unfold nestedindex_stack at h
    split at h
    · cases h
    · split at h
      · cases h
      · split at h
        · cases h
          simp
        · cases h

/-- Witness for `claim_C4_amended`: the arity-1 conjunct at a concrete stack. -/
theorem claim_C4_witness :
    ([Value.flat [0, 2, 5], Value.flat [9]] : List Value).length =
      ([Value.flat [2, 3], Value.flat [9]] : List Value).length :=
  (claim_C4_amended [Value.flat [2, 3], Value.flat [9]]
    [Value.flat [0, 2, 5], Value.flat [9]]).2.1 (by decide)

/-- C2: the kernel emits the literal range `[0]` for (begin, end) = (0, 1),
but `get_index_ranges` discards it: its short-circuit condition is
`awkward.sum(ranges) == 0`, the sum of the emitted integers, not their count,
so the non-empty result `[[ [0] ]]` is replaced by the doubly-empty filtered
array.  The claim's own examples (2..5 and the empty 3..3 range) do evaluate
as stated. -/
theorem claim_C2_theorem :
    getIndexRangesKernel [[(0, 1)]] = [[[0]]] ∧
    get_index_ranges [[0]] [[1]] = [[[]]] ∧
    get_index_ranges [[2]] [[5]] = [[[2, 3, 4]]] ∧
    get_index_ranges [[3]] [[3]] = [[[]]] := by
  exact ⟨by decide, by decide, by decide, by decide⟩

/-- C5: the structured variant does not behave like `begin_end_mapping`: it
destructures the single array returned by `get_index_ranges` into three names,
which fails on this ordinary one-event input, while the scalar mapping gathers
the expected values on the analogous input. -/
theorem claim_C5_theorem :
    begin_end_mapping_with_xyzrecord [[2]] [[5]]
        [[⟨1, 1, 1⟩, ⟨2, 2, 2⟩, ⟨3, 3, 3⟩, ⟨4, 4, 4⟩, ⟨5, 5, 5⟩, ⟨6, 6, 6⟩]]
      = .error "ValueError: cannot unpack the ranges array into three values" ∧
    begin_end_mapping [[2]] [[5]] [[10, 11, 12, 13, 14, 15]] = .ok [[[12, 13, 14]]] := by
  exact ⟨by decide, by decide⟩

theorem parentChain_neg (parents : List Int) (fc : Nat) (p : Int) (hp : p < 0) :
    parentChain parents fc p = [] := by
  cases fc with
  | zero => rfl
  | succ fc => simp [parentChain, hp]

theorem walk_eq_chainFind (parents pdgs : List Int) (tp : Int)
    (hacyc : ∀ j : Nat, j < parents.length → parents.getD j 0 < (j : Int))
    (hsent : ∀ x ∈ parents, -1 ≤ x) :
    ∀ (fuel fuelc : Nat) (p : Int), 0 ≤ p → p < (parents.length : Int) →
      p + 2 ≤ (fuel : Int) → p + 1 ≤ (fuelc : Int) →
      distinctParentWalk parents pdgs tp fuel p =
        some (firstDiff pdgs tp (parentChain parents fuelc p))
  | 0, _, p, h0, _, h2, _ => by exfalso; omega
  | fuel + 1, fuelc, p, h0, hlt, h2, h3 => by
    have hplen : p.toNat < parents.length := by omega
    have hmemp : parents.getD p.toNat 0 ∈ parents := by
      rw [List.getD_eq_getElem parents 0 hplen]
      exact List.getElem_mem hplen
    have hstep : parents.getD p.toNat 0 < p := by
      have := hacyc p.toNat hplen
      rwa [Int.toNat_of_nonneg h0] at this
    obtain ⟨fc, rfl⟩ : ∃ fc, fuelc = fc + 1 := ⟨fuelc - 1, by omega⟩
    have hnp : ¬ p < 0 := by omega
    rw [distinctParentWalk, parentChain, if_neg hnp, if_neg hnp, firstDiff]
    by_cases hd : pdgs.getD p.toNat 0 ≠ tp
    · rw [if_pos hd, if_pos hd]
    · rw [if_neg hd, if_neg hd]
      set p' := parents.getD p.toNat 0 with hp'
      by_cases hneg : p' < 0
      · have hm1 : p' = -1 := by
          have := hsent p' hmemp
          omega
        rw [parentChain_neg parents fc p' hneg, hm1]
        obtain ⟨f, rfl⟩ : ∃ f, fuel = f + 1 := ⟨fuel - 1, by omega⟩
        rw [distinctParentWalk, if_pos (by omega : (-1 : Int) < 0)]
        rfl
      · exact walk_eq_chainFind parents pdgs tp hacyc hsent fuel fc p'
          (by omega) (by omega) (by omega) (by omega)

/-- C7 counterexample: on the claim's example, species `[A, A, B] = [1, 1, 2]`
with parents `[-1, 0, 1]`, the kernel yields `[-1, -1, 1]` — particle 2's
parent, particle 1, already has a different species tag — and not the claimed
`[-1, -1, 0]`. -/
theorem claim_C7_counterexample :
    distinctParent_kernel [-1, 0, 1] [1, 1, 2] = [some (-1), some (-1), some 1] ∧
    distinctParent_kernel [-1, 0, 1] [1, 1, 2] ≠ [some (-1), some (-1), some 0] := by
  exact ⟨by decide, by decide⟩

/-- C7 amended: under the data model's preconditions (parents stored before
children, and negative parent entries equal to the `-1` sentinel), every entry
of `distinctParent_kernel` is `-1` for a root and otherwise the first ancestor
on the parent chain with a different species tag, or `-1` when the chain ends
without one; on the example the result is `[-1, -1, 1]`, not `[-1, -1, 0]`. -/
theorem claim_C7_amended (parents pdgs : List Int)
    (hlen : parents.length = pdgs.length)
    (hacyc : ∀ j : Nat, j < parents.length → parents.getD j 0 < (j : Int))
    (hsent : ∀ x ∈ parents, -1 ≤ x) :
    distinctParent_kernel parents pdgs =
      (List.range pdgs.length).map (fun i => some (distinctParentSpec parents pdgs i)) := by
  unfold distinctParent_kernel
  refine List.map_congr_left (fun i hi => ?_)
  have hi' : i < pdgs.length := List.mem_range.mp hi
  unfold distinctParentSpec
  by_cases hp : parents.getD i 0 < 0
  · simp only [if_pos hp]
  · simp only [if_neg hp]
    push_neg at hp
    have hpi : parents.getD i 0 < (i : Int) := hacyc i (by omega)
    have hi2 : (i : Int) < (pdgs.length : Int) := by exact_mod_cast hi'
    exact walk_eq_chainFind parents pdgs (pdgs.getD i 0) hacyc hsent
      pdgs.length parents.length (parents.getD i 0) hp (by omega) (by omega) (by omega)

/-- Witness for `claim_C7_amended` at the (corrected) example input. -/
theorem claim_C7_witness :
    distinctParent_kernel [-1, 0, 1] [1, 1, 2] =
      (List.range 3).map (fun i => some (distinctParentSpec [-1, 0, 1] [1, 1, 2] i)) :=
  claim_C7_amended [-1, 0, 1] [1, 1, 2] (by decide) (by decide) (by decide)

theorem walk_terminates (parents pdgs : List Int) (tp : Int)
    (hacyc : ∀ j : Nat, j < parents.length → parents.getD j 0 < (j : Int)) :
    ∀ (fuel : Nat) (p : Int), 0 ≤ p → p < (parents.length : Int) →
      p + 2 ≤ (fuel : Int) →
      distinctParentWalk parents pdgs tp fuel p ≠ none
  | 0, p, h0, _, h2 => by exfalso; omega
  | fuel + 1, p, h0, hlt, h2 => by
    have hplen : p.toNat < parents.length := by omega
    have hstep : parents.getD p.toNat 0 < p := by
      have := hacyc p.toNat hplen
      rwa [Int.toNat_of_nonneg h0] at this
    rw [distinctParentWalk, if_neg (by omega : ¬ p < 0)]
    by_cases hd : pdgs.getD p.toNat 0 ≠ tp
    · rw [if_pos hd]
      exact Option.some_ne_none p
    · rw [if_neg hd]
      set p' := parents.getD p.toNat 0 with hp'
      by_cases hneg : p' < 0
      · obtain ⟨f, rfl⟩ : ∃ f, fuel = f + 1 := ⟨fuel - 1, by omega⟩
        rw [distinctParentWalk, if_pos hneg]
        exact Option.some_ne_none p'
      · exact walk_terminates parents pdgs tp hacyc fuel p'
          (by omega) (by omega) (by omega)

/-- C10: under the acyclicity precondition — every non-negative parent entry is
strictly smaller than the index carrying it — every entry of
`distinctParent_kernel` is a terminating walk (never the fuel-exhaustion value
`none`, and array-length fuel is exact, see `distinctParentWalk`); and absent
that precondition the inner walk need not terminate: with a self-parenting
particle of matching species the walk runs out of any amount of fuel. -/
theorem claim_C10 (parents pdgs : List Int)
    (hlen : parents.length = pdgs.length)
    (hacyc : ∀ j : Nat, j < parents.length → parents.getD j 0 < (j : Int)) :
    (∀ r ∈ distinctParent_kernel parents pdgs, r ≠ none) ∧
    (∀ fuel, distinctParentWalk [0] [5] 5 fuel 0 = none) := by
  constructor
  · intro r hr
    unfold distinctParent_kernel at hr
    obtain ⟨i, hi, rfl⟩ := List.mem_map.mp hr
    have hi' : i < pdgs.length := List.mem_range.mp hi
    by_cases hp : parents.getD i 0 < 0
    · simp only [if_pos hp]
      exact Option.some_ne_none _
    · simp only [if_neg hp]
      push_neg at hp
      have hpi : parents.getD i 0 < (i : Int) := hacyc i (by omega)
      have hi2 : (i : Int) < (pdgs.length : Int) := by exact_mod_cast hi'
      exact walk_terminates parents pdgs (pdgs.getD i 0) hacyc
        pdgs.length (parents.getD i 0) hp (by omega) (by omega)
  · intro fuel
    induction fuel with
    | zero => rfl
    | succ f ih =>
        rw [distinctParentWalk, if_neg (by omega : ¬ (0 : Int) < 0)]
        rw [if_neg (by norm_num : ¬ ([5] : List Int).getD (0 : Int).toNat 0 ≠ 5)]
        simpa using ih

/-- Witness for `claim_C10` at a concrete acyclic input. -/
theorem claim_C10_witness :
    (∀ r ∈ distinctParent_kernel [-1, 0] [7, 7], r ≠ none) ∧
    (∀ fuel, distinctParentWalk [0] [5] 5 fuel 0 = none) :=
  claim_C10 [-1, 0] [7, 7] (by decide) (by decide)

theorem childrenInner_ok (parent : List Int) (cap k : Nat) :
    ∀ (fuel j : Nat) (content : List Nat),
      content.length +
        ((List.range' j fuel).filter (fun x => parent.getD x 0 = (k : Int))).length ≤ cap →
      childrenInner parent cap k j fuel content =
        .ok (content ++ (List.range' j fuel).filter (fun x => parent.getD x 0 = (k : Int)))
  | 0, j, content, _ => by simp [childrenInner]
  | fuel + 1, j, content, h => by
    rw [List.range'_succ] at h ⊢
    by_cases hpj : parent.getD j 0 = (k : Int)
    · have hfc : (j :: List.range' (j + 1) fuel).filter
          (fun x => parent.getD x 0 = (k : Int)) =
          j :: (List.range' (j + 1) fuel).filter (fun x => parent.getD x 0 = (k : Int)) := by
        rw [List.filter_cons, if_pos (decide_eq_true hpj)]
      rw [hfc] at h ⊢
      have hlt : content.length < cap := by
        simp only [List.length_cons] at h
        omega
      rw [childrenInner, if_pos hpj, if_neg (by omega)]
      rw [childrenInner_ok parent cap k fuel (j + 1) (content ++ [j])
        (by
          simp only [List.length_append, List.length_cons, List.length_nil] at h ⊢
          omega)]
      simp
    · have hfc : (j :: List.range' (j + 1) fuel).filter
          (fun x => parent.getD x 0 = (k : Int)) =
          (List.range' (j + 1) fuel).filter (fun x => parent.getD x 0 = (k : Int)) := by
        rw [List.filter_cons, if_neg (fun hc => hpj (of_decide_eq_true hc))]
      rw [hfc] at h ⊢
      rw [childrenInner, if_neg hpj]
      exact childrenInner_ok parent cap k fuel (j + 1) content h

theorem childrenMid_ok (parent : List Int) (cap t : Nat) :
    ∀ (fuel k : Nat) (offs : List Int) (content : List Nat),
      k + fuel = t →
      content.length +
        (((List.range' k fuel).map (fun u => childEmit parent u t)).flatten).length ≤ cap →
      offs.length + fuel ≤ cap + 1 →
      ∃ offs2, childrenMid parent cap t k fuel (offs, content) =
        .ok (offs2, content ++ ((List.range' k fuel).map (fun u => childEmit parent u t)).flatten) ∧
        offs2.length = offs.length + fuel
  | 0, k, offs, content, _, _, _ => by
    refine ⟨offs, ?_, by omega⟩
    simp [childrenMid]
  | fuel + 1, k, offs, content, hkt, hcap, hoffs => by
    rw [List.range'_succ, List.map_cons, List.flatten_cons] at hcap ⊢
    have hinner : childrenInner parent cap k k (t - k) content =
        .ok (content ++ childEmit parent k t) := by
      refine childrenInner_ok parent cap k (t - k) k content ?_
      have hck : childEmit parent k t =
          (List.range' k (t - k)).filter (fun x => parent.getD x 0 = (k : Int)) := rfl
      rw [← hck]
      simp only [List.length_append] at hcap ⊢
      omega
    rw [childrenMid]
    split
    · next e heq =>
        rw [hinner] at heq
        cases heq
    · next c' heq =>
        rw [hinner] at heq
        obtain rfl : c' = content ++ childEmit parent k t := (Except.ok.inj heq).symm
        rw [if_neg (by omega)]
        obtain ⟨offs2, hmid, hlen⟩ := childrenMid_ok parent cap t fuel (k + 1)
          (offs ++ [((content ++ childEmit parent k t).length : Int)])
          (content ++ childEmit parent k t)
          (by omega)
          (by simp only [List.length_append] at hcap ⊢; omega)
          (by simp only [List.length_append, List.length_cons, List.length_nil]; omega)
        refine ⟨offs2, ?_, ?_⟩
        · rw [hmid]
          simp [List.append_assoc]
        · simp only [List.length_append, List.length_cons, List.length_nil] at hlen
          omega

theorem childEmit_nodup (parent : List Int) (k t : Nat) : (childEmit parent k t).Nodup :=
  (List.nodup_range' k (t - k)).filter _

theorem childEmit_mem (parent : List Int) (k t : Nat) :
    ∀ x ∈ childEmit parent k t, k ≤ x ∧ x < t ∧ parent.getD x 0 = (k : Int) := by
  intro x hx
  obtain ⟨hr, hp⟩ := List.mem_filter.mp hx
  obtain ⟨i, hi, rfl⟩ := List.mem_range'.mp hr
  exact ⟨by omega, by omega, by simpa using hp⟩

theorem eventEmit_nodup (parent : List Int) (s t : Nat) : (eventEmit parent s t).Nodup := by
  rw [eventEmit, List.nodup_flatten]
  constructor
  · intro l hl
    obtain ⟨u, _, rfl⟩ := List.mem_map.mp hl
    exact childEmit_nodup parent u t
  · rw [List.pairwise_map]
    refine List.Pairwise.imp ?_ (List.pairwise_lt_range' s (t - s) 1)
    intro u v huv x hxu hxv
    have h1 := (childEmit_mem parent u t x hxu).2.2
    have h2 := (childEmit_mem parent v t x hxv).2.2
    omega

theorem eventEmit_mem (parent : List Int) (s t : Nat) :
    ∀ x ∈ eventEmit parent s t, s ≤ x ∧ x < t := by
  intro x hx
  rw [eventEmit, List.mem_flatten] at hx
  obtain ⟨l, hl, hxl⟩ := hx
  obtain ⟨u, hu, rfl⟩ := List.mem_map.mp hl
  obtain ⟨i, hi, rfl⟩ := List.mem_range'.mp hu
  have := childEmit_mem parent (s + 1 * i) t x hxl
  omega

theorem eventEmit_length_le (parent : List Int) (s t : Nat) :
    (eventEmit parent s t).length ≤ t - s := by
  have hsub : eventEmit parent s t ⊆ List.range' s (t - s) := by
    intro x hx
    have := eventEmit_mem parent s t x hx
    rw [List.mem_range']
    exact ⟨x - s, by omega, by omega⟩
  have := (List.subperm_of_subset (eventEmit_nodup parent s t) hsub).length_le
  simpa using this

theorem childrenOuter_ok (parent : List Int) (cap : Nat) :
    ∀ (offsets offs : List Int) (content : List Nat),
      offsets.Chain' (· ≤ ·) →
      (∀ x ∈ offsets, 0 ≤ x ∧ x ≤ (cap : Int)) →
      content.Nodup →
      (∀ a ∈ offsets.head?, (∀ x ∈ content, (x : Int) < a) ∧
        ((content.length : Int) ≤ a) ∧ ((offs.length : Int) ≤ a + 1)) →
      ∃ offs2 content2,
        childrenOuter parent cap offsets (offs, content) = .ok (offs2, content2) ∧
        content2.Nodup ∧
        (∀ g ∈ offsets.getLast?, (content2.length : Int) ≤ g)
  | [], offs, content, _, _, hnd, _ => by
    exact ⟨offs, content, rfl, hnd, by simp⟩
  | [a], offs, content, _, _, hnd, hinv => by
    refine ⟨offs, content, rfl, hnd, ?_⟩
    intro g hg
    simp only [List.getLast?_singleton, Option.mem_def, Option.some.injEq] at hg
    obtain ⟨_, hlen, _⟩ := hinv a (by simp)
    omega
  | a :: b :: rest, offs, content, hchain, hbound, hnd, hinv => by
    obtain ⟨hina, hlena, hoffsa⟩ := hinv a (by simp)
    have hab : a ≤ b := (List.chain'_cons.mp hchain).1
    have ha := hbound a (by simp)
    have hb := hbound b (by simp)
    have hsle : a.toNat ≤ b.toNat := Int.toNat_le_toNat hab
    have hE := eventEmit_length_le parent a.toNat b.toNat
    have hEmem := eventEmit_mem parent a.toNat b.toNat
    have hEflat : (((List.range' a.toNat (b.toNat - a.toNat)).map
        (fun u => childEmit parent u b.toNat)).flatten) =
        eventEmit parent a.toNat b.toNat := rfl
    obtain ⟨offs2, hmid, hlen2⟩ := childrenMid_ok parent cap b.toNat
      (b.toNat - a.toNat) a.toNat offs content
      (by omega)
      (by rw [hEflat]; omega)
      (by omega)
    rw [hEflat] at hmid
    have hnd2 : (content ++ eventEmit parent a.toNat b.toNat).Nodup := by
      refine List.Nodup.append hnd (eventEmit_nodup parent a.toNat b.toNat) ?_
      intro x hxc hxe
      have h1 := hina x hxc
      have h2 := hEmem x hxe
      omega
    obtain ⟨offs3, content3, houter, hnd3, hlast3⟩ :=
      childrenOuter_ok parent cap (b :: rest) offs2
        (content ++ eventEmit parent a.toNat b.toNat)
        hchain.tail
        (fun x hx => hbound x (List.mem_cons_of_mem a hx))
        hnd2
        (by
          intro g hg
          simp only [List.head?_cons, Option.mem_def, Option.some.injEq] at hg
          subst hg
          refine ⟨?_, ?_, ?_⟩
          · intro x hx
            rcases List.mem_append.mp hx with hxc | hxe
            · have := hina x hxc; omega
            · have := hEmem x hxe; omega
          · simp only [List.length_append]
            omega
          · omega)
    refine ⟨offs3, content3, ?_, hnd3, ?_⟩
    · rw [childrenOuter, hmid]
      exact houter
    · intro g hg
      refine hlast3 g ?_
      simpa [List.getLast?_cons_cons] using hg

theorem pairwise_le_getLast : ∀ (l : List Int), l.Pairwise (· ≤ ·) →
    ∀ g, l.getLast? = some g → ∀ x ∈ l, x ≤ g
  | [], _, g, hg => by simp at hg
  | [a], _, g, hg => by
    intro x hx
    simp only [List.getLast?_singleton, Option.some.injEq] at hg
    simp only [List.mem_singleton] at hx
    omega
  | a :: b :: rest, hp, g, hg => by
    intro x hx
    have hne : (b :: rest) ≠ [] := by simp
    have hg' : (b :: rest).getLast? = some g := by
      simpa [List.getLast?_cons_cons] using hg
    have hgl : (b :: rest).getLast hne = g := by
      have h2 := List.getLast?_eq_getLast (b :: rest) hne
      rw [hg'] at h2
      exact (Option.some.inj h2).symm
    have hgm : g ∈ b :: rest := hgl ▸ List.getLast_mem hne
    rcases List.mem_cons.mp hx with rfl | hx'
    · exact (List.pairwise_cons.mp hp).1 g hgm
    · exact pairwise_le_getLast (b :: rest) (List.pairwise_cons.mp hp).2 g hg' x hx'

/-- C9: under valid offsets (monotone non-decreasing, starting at 0, ending at
the particle count), `_children_kernel` always returns normally — neither
preallocated-buffer bound check can fire — and its emitted content lists each
position at most once (each `j` is a child of at most the one index
`parent[j]`), so the total number of emitted children never exceeds the number
of particles. -/
theorem claim_C9 (offsets_in parentidx : List Int)
    (hchain : offsets_in.Chain' (· ≤ ·))
    (hhead : offsets_in.head? = some 0)
    (hlast : offsets_in.getLast? = some (parentidx.length : Int)) :
    ∃ offs content, children_kernel offsets_in parentidx = .ok (offs, content) ∧
      content.Nodup ∧ content.length ≤ parentidx.length := by
  have hpw : offsets_in.Pairwise (· ≤ ·) := List.chain'_iff_pairwise.mp hchain
  have hbound : ∀ x ∈ offsets_in, 0 ≤ x ∧ x ≤ (parentidx.length : Int) := by
    intro x hx
    refine ⟨?_, pairwise_le_getLast offsets_in hpw _ hlast x hx⟩
    cases offsets_in with
    | nil => simp at hx
    | cons a0 rest =>
        have ha0 : a0 = 0 := by simpa using hhead
        subst ha0
        rcases List.mem_cons.mp hx with rfl | hx'
        · omega
        · exact (List.pairwise_cons.mp hpw).1 x hx'
  obtain ⟨offs2, content2, hok, hnd, hlastlen⟩ :=
    childrenOuter_ok parentidx parentidx.length offsets_in [0] []
      hchain hbound List.nodup_nil
      (by
        intro a ha
        rw [hhead] at ha
        have ha0 : a = 0 := by simpa [eq_comm] using ha
        subst ha0
        exact ⟨by simp, by simp, by simp⟩)
  refine ⟨offs2, content2, hok, hnd, ?_⟩
  have := hlastlen _ (Option.mem_def.mpr hlast)
  omega

/-- Witness for `claim_C9` at the spec's synthetic single-event input. -/
theorem claim_C9_witness :
    ∃ offs content, children_kernel [0, 4] [-1, 0, 0, 1] = .ok (offs, content) ∧
      content.Nodup ∧ content.length ≤ ([-1, 0, 0, 1] : List Int).length :=
  claim_C9 [0, 4] [-1, 0, 0, 1]
    (List.chain'_cons.mpr ⟨by norm_num, List.chain'_singleton _⟩) (by decide) (by decide)

/-- C3 counterexample: a two-particle event where particle 1 is a lineage start
(parent 0 has species 5, particle 1 has species 6) with no children at all.
The claim predicts that the childless lineage start `i` is itself appended to
its own output (content `[1]`), but the kernel's dead-end pass iterates
`range(1, offset2)`, skipping `parents[0] = i`, so the output for particle 1
is empty. -/
theorem claim_C3_counterexample :
    distinctChildrenDeep_kernel [0, 2] [-1, 0] [5, 6] = .ok ([0, 0, 0], []) ∧
    distinctChildrenDeep_kernel [0, 2] [-1, 0] [5, 6] ≠ .ok ([0, 0, 1], [1]) := by
  exact ⟨by decide, by decide⟩

theorem mem_drop_one_append (P : List Int) (x y : Int) (h : y ∈ (P ++ [x]).drop 1) :
    y ∈ P.drop 1 ∨ y = x := by
  cases P with
  | nil => simp at h
  | cons q Ptail =>
      simp only [List.cons_append, List.drop_succ_cons, List.drop_zero] at h ⊢
      rcases List.mem_append.mp h with h1 | h1
      · exact Or.inl h1
      · exact Or.inr (by simpa using h1)

theorem ddcDeadEnd_sub (W : List Int) (lenAll clen0 : Nat) :
    ∀ (L em ext : List Int), ddcDeadEnd W lenAll clen0 L em = .ok ext →
      em ⊆ ext ∧ ∀ p ∈ L, p ∉ W → p ∈ ext
  | [], em, ext, h => by
      rw [ddcDeadEnd] at h
      obtain rfl := Except.ok.inj h
      exact ⟨fun x hx => hx, by simp⟩
  | p :: rest, em, ext, h => by
      rw [ddcDeadEnd] at h
      by_cases hpW : p ∈ W
      · rw [if_pos hpW] at h
        obtain ⟨hsub, hrest⟩ := ddcDeadEnd_sub W lenAll clen0 rest em ext h
        refine ⟨hsub, ?_⟩
        intro q hq hqW
        rcases List.mem_cons.mp hq with rfl | hq'
        · exact absurd hpW hqW
        · exact hrest q hq' hqW
      · rw [if_neg hpW] at h
        by_cases hcl : lenAll ≤ clen0 + em.length
        · rw [if_pos hcl] at h; cases h
        · rw [if_neg hcl] at h
          obtain ⟨hsub, hrest⟩ := ddcDeadEnd_sub W lenAll clen0 rest (em ++ [p]) ext h
          refine ⟨fun x hx => hsub (List.mem_append_left _ hx), ?_⟩
          intro q hq hqW
          rcases List.mem_cons.mp hq with rfl | hq'
          · exact hsub (List.mem_append_right _ (by simp))
          · exact hrest q hq' hqW

theorem ddcDeadEnd_mem (W : List Int) (lenAll clen0 : Nat) :
    ∀ (L em ext : List Int), ddcDeadEnd W lenAll clen0 L em = .ok ext →
      ∀ x ∈ ext, x ∈ em ∨ (x ∈ L ∧ x ∉ W)
  | [], em, ext, h => by
      rw [ddcDeadEnd] at h
      obtain rfl := Except.ok.inj h
      exact fun x hx => Or.inl hx
  | p :: rest, em, ext, h => by
      rw [ddcDeadEnd] at h
      by_cases hpW : p ∈ W
      · rw [if_pos hpW] at h
        intro x hx
        rcases ddcDeadEnd_mem W lenAll clen0 rest em ext h x hx with h1 | ⟨h1, h2⟩
        · exact Or.inl h1
        · exact Or.inr ⟨List.mem_cons_of_mem p h1, h2⟩
      · rw [if_neg hpW] at h
        by_cases hcl : lenAll ≤ clen0 + em.length
        · rw [if_pos hcl] at h; cases h
        · rw [if_neg hcl] at h
          intro x hx
          rcases ddcDeadEnd_mem W lenAll clen0 rest (em ++ [p]) ext h x hx with h1 | ⟨h1, h2⟩
          · rcases List.mem_append.mp h1 with h3 | h3
            · exact Or.inl h3
            · have hxp : x = p := by simpa using h3
              subst hxp
              exact Or.inr ⟨List.mem_cons_self _ _, hpW⟩
          · exact Or.inr ⟨List.mem_cons_of_mem p h1, h2⟩

theorem ddcScan_inv (parentsArr pdgs : List Int) (thisPdg : Int)
    (lenAll pcap clen0 : Nat) (i : Nat) :
    ∀ (fuel c : Nat) (P W em P' W' em' : List Int),
      i < c →
      (∀ x ∈ em, x ≠ (i : Int)) →
      ((i : Int) ∈ P.drop 1 → (i : Int) ∈ W) →
      ddcScan parentsArr pdgs thisPdg lenAll pcap clen0 c fuel (P, W, em) = .ok (P', W', em') →
      (∀ x ∈ em', x ≠ (i : Int)) ∧ ((i : Int) ∈ P'.drop 1 → (i : Int) ∈ W')
  | 0, c, P, W, em, P', W', em', _, hem, hPW, h => by
      simp only [ddcScan] at h
      have h3 : (P, W, em) = (P', W', em') := Except.ok.inj h
      rw [Prod.mk.injEq, Prod.mk.injEq] at h3
      obtain ⟨rfl, rfl, rfl⟩ := h3
      exact ⟨hem, hPW⟩
  | fuel + 1, c, P, W, em, P', W', em', hic, hem, hPW, h => by
      simp only [ddcScan] at h
      by_cases hm : parentsArr.getD c 0 ∈ P
      · rw [if_pos hm] at h
        by_cases hw : pcap ≤ W.length
        · rw [if_pos hw] at h; cases h
        · rw [if_neg hw] at h
          by_cases hpd : pdgs.getD c 0 = thisPdg
          · rw [if_pos hpd] at h
            by_cases hp2 : pcap ≤ P.length
            · rw [if_pos hp2] at h; cases h
            · rw [if_neg hp2] at h
              refine ddcScan_inv parentsArr pdgs thisPdg lenAll pcap clen0 i fuel (c + 1)
                (P ++ [(c : Int)]) (W ++ [parentsArr.getD c 0]) em P' W' em'
                (by omega) hem ?_ h
              intro hiP
              rcases mem_drop_one_append P (c : Int) (i : Int) hiP with h1 | h1
              · exact List.mem_append_left _ (hPW h1)
              · exfalso
                have : i = c := by exact_mod_cast h1
                omega
          · rw [if_neg hpd] at h
            by_cases hcl : lenAll ≤ clen0 + em.length
            · rw [if_pos hcl] at h; cases h
            · rw [if_neg hcl] at h
              refine ddcScan_inv parentsArr pdgs thisPdg lenAll pcap clen0 i fuel (c + 1)
                P (W ++ [parentsArr.getD c 0]) (em ++ [(c : Int)]) P' W' em'
                (by omega) ?_ (fun hiP => List.mem_append_left _ (hPW hiP)) h
              intro x hx
              rcases List.mem_append.mp hx with h1 | h1
              · exact hem x h1
              · have hxc : x = (c : Int) := by simpa using h1
                subst hxc
                intro heq
                have : c = i := by exact_mod_cast heq
                omega
      · rw [if_neg hm] at h
        exact ddcScan_inv parentsArr pdgs thisPdg lenAll pcap clen0 i fuel (c + 1)
          P W em P' W' em' (by omega) hem hPW h

theorem ddcScan_start_inv (parentsArr pdgs : List Int) (lenAll pcap clen0 i : Nat) :
    ∀ (fuel : Nat) (P' W' em' : List Int),
      ddcScan parentsArr pdgs (pdgs.getD i 0) lenAll pcap clen0 i fuel
        ([(i : Int)], [], []) = .ok (P', W', em') →
      (∀ x ∈ em', x ≠ (i : Int)) ∧ ((i : Int) ∈ P'.drop 1 → (i : Int) ∈ W') := by
  intro fuel P' W' em' h
  cases fuel with
  | zero =>
      simp only [ddcScan] at h
      have h3 : (([(i : Int)], ([] : List Int), ([] : List Int))) = (P', W', em') :=
        Except.ok.inj h
      rw [Prod.mk.injEq, Prod.mk.injEq] at h3
      obtain ⟨rfl, rfl, rfl⟩ := h3
      exact ⟨by simp, by simp⟩
  | succ fuel =>
      simp only [ddcScan] at h
      by_cases hm : parentsArr.getD i 0 ∈ [(i : Int)]
      · rw [if_pos hm] at h
        have hpp : parentsArr.getD i 0 = (i : Int) := by simpa using hm
        by_cases hw : pcap ≤ ([] : List Int).length
        · rw [if_pos hw] at h; cases h
        · rw [if_neg hw] at h
          rw [if_pos trivial] at h
          by_cases hp2 : pcap ≤ ([(i : Int)] : List Int).length
          · rw [if_pos hp2] at h; cases h
          · rw [if_neg hp2] at h
            refine ddcScan_inv parentsArr pdgs (pdgs.getD i 0) lenAll pcap clen0 i
              fuel (i + 1) ([(i : Int)] ++ [(i : Int)]) ([] ++ [parentsArr.getD i 0]) []
              P' W' em' (by omega) (by simp) ?_ h
            intro _
            rw [hpp]
            simp
      · rw [if_neg hm] at h
        refine ddcScan_inv parentsArr pdgs (pdgs.getD i 0) lenAll pcap clen0 i
          fuel (i + 1) [(i : Int)] [] [] P' W' em' (by omega) (by simp) ?_ h
        intro hfalse
        simp at hfalse

/-- C3 amended: in `_distinctChildrenDeep_kernel`, (a) a particle that does not
start a new same-species lineage contributes an empty output list; (b) for a
lineage-start particle `i`, the relay-ancestor list is seeded with `i` itself,
and after the forward scan every relay ancestor other than `i` that was never
recorded as having a child is appended to `i`'s output, while `i` itself never
appears in its own output — in particular a childless lineage start is not
appended as its own dead-end leaf; and (c) on the spec's example chain the
output for particle 0 is `[2, 3]` and for particle 1 (and all others) is
empty. -/
theorem claim_C3_amended (parentsArr pdgs : List Int) (lenAll clen0 i t : Nat) :
    (¬ (0 ≤ parentsArr.getD i 0 ∧
        pdgs.getD i 0 ≠ pdgs.getD (parentsArr.getD i 0).toNat 0) →
      ddcParticle parentsArr pdgs lenAll clen0 i t = .ok []) ∧
    (∀ P W em ext : List Int,
      ddcScan parentsArr pdgs (pdgs.getD i 0) lenAll (t - i) clen0 i (t - i)
          ([(i : Int)], [], []) = .ok (P, W, em) →
      ddcDeadEnd W lenAll clen0 (P.drop 1) em = .ok ext →
      (i : Int) ∉ ext ∧ ∀ p ∈ P.drop 1, p ∉ W → p ∈ ext) ∧
    distinctChildrenDeep_kernel [0, 4] [2, 0, 1, 1] [1, 1, 2, 1] =
      .ok ([0, 2, 2, 2, 2], [2, 3]) := by
  refine ⟨?_, ?_, by decide⟩
  · intro hnot
    simp only [ddcParticle]
    rw [if_neg hnot]
  · intro P W em ext hscan hdd
    have hsi := ddcScan_start_inv parentsArr pdgs lenAll (t - i) clen0 i (t - i)
      P W em hscan
    constructor
    · intro hi
      rcases ddcDeadEnd_mem W lenAll clen0 (P.drop 1) em ext hdd (i : Int) hi with h1 | ⟨h1, h2⟩
      · exact hsi.1 _ h1 rfl
      · exact h2 (hsi.2 h1)
    · intro p hp hpW
      exact (ddcDeadEnd_sub W lenAll clen0 (P.drop 1) em ext hdd).2 p hp hpW

/-- Witness for `claim_C3_amended`: the lineage-start conjunct applied to the
concrete forward scan of particle 0 of the example chain. -/
theorem claim_C3_witness :
    ((0 : Nat) : Int) ∉ ([2, 3] : List Int) ∧
      ∀ p ∈ (([0, 1, 3] : List Int).drop 1), p ∉ ([0, 1, 1] : List Int) →
        p ∈ ([2, 3] : List Int) :=
  (claim_C3_amended [2, 0, 1, 1] [1, 1, 2, 1] 4 0 0 4).2.1 [0, 1, 3] [0, 1, 1] [2] [2, 3]
    (by decide) (by decide)
